import Mathlib

/-!
# Verification of the `EventEmitter` core (`src/index.ts`)

Shallow embedding of the event-emitter registry and dispatch algorithm.

Function references are modelled by numeric identities: a user-supplied
listener function is `Entry.plain l` (two listeners are the same JS
reference iff their ids agree), and each once-wrapper created by
`createOnceWrapper` is `Entry.wrapper wid e l` with a fresh `wid` drawn
from a per-emitter counter (distinct wrapper objects are never reference
equal, even when they wrap the same listener).  JS `===` on these
references is Lean equality of `Entry` values.

The registries (`events`, the `onceListeners` map, and the
`warningEmitted` map) are association lists keyed by event-name strings,
mirroring JS object / `Map` key semantics; absent key and present key are
distinguished, as the source distinguishes `undefined` from an array.

Listener behaviour is given by an environment `Env : Nat → List Act`
assigning each plain-listener id a script of emitter operations it
performs when invoked, optionally ending in a synchronous `throw`.
Dispatch (`emit`) is interpreted by a fuel-indexed evaluator; `none`
means the fuel bound was exceeded, never a real behaviour.

On the faithfulness of iterating a captured list in `emit`: the source
runs `this.events[event].forEach(cb)`.  `Array.prototype.forEach` caches
the array reference and its length at the start; `off` and
`removeAllListeners` only ever *replace* the registry's array (via
`filter` / `delete`), never mutate it, and `on` / `once` *append* via
`push`, which does not disturb the first `length` cached positions.
Hence, for the operations a listener script can perform here (`on`,
`once`, `off`, `emit`, `throw`), the elements visited by `forEach` are
exactly the elements of the list captured when the dispatch began, in
order, while registry mutations take effect on the state threaded
through.  (`prepend` during an in-progress dispatch, which would shift
the live array in place, is not part of the script language; it is
modelled only as a top-level operation.)
-/

namespace EvE

/-- A function reference that can sit in a listener array: a plain user
listener, or a `OnceListenerWrapper` (`wid` is the wrapper object's
identity, `event` the event name captured by the wrapper's closure, `l`
its stored `.listener` back-reference). -/
inductive Entry where
  | plain (l : Nat)
  | wrapper (wid : Nat) (event : String) (l : Nat)
deriving DecidableEq, Repr

/-- Whether an entry is a once-wrapper (`'listener' in l` in the source). -/
def Entry.isWrapper : Entry → Bool
  | .plain _ => false
  | .wrapper _ _ _ => true

/-- The `maxListeners` number: a finite value or `Infinity`. -/
inductive MaxL where
  | fin (n : Int)
  | inf
deriving DecidableEq, Repr

/-- First-match lookup in an association list (JS object / `Map.get`). -/
def getA {α : Type} : List (String × α) → String → Option α
  | [], _ => none
  | (k, v) :: rest, k2 => if k = k2 then some v else getA rest k2

/-- Key update in an association list (JS property assignment / `Map.set`). -/
def setA {α : Type} : List (String × α) → String → α → List (String × α)
  | [], k, v => [(k, v)]
  | (k2, v2) :: rest, k, v =>
      if k2 = k then (k, v) :: rest else (k2, v2) :: setA rest k v

/-- Key removal (JS `delete` / `Map.delete`). -/
def delA {α : Type} (m : List (String × α)) (k : String) : List (String × α) :=
  m.filter (fun p => !(p.1 == k))

/-- The mutable state of one `EventEmitter` instance. -/
structure St where
  /-- `private events`: event name → listener array. -/
  events : List (String × List Entry)
  /-- `private onceListeners`: event name → active wrapper array. -/
  onceL : List (String × List Entry)
  /-- `private warningEmitted`: event names whose flag is set. -/
  warned : List String
  /-- `private maxListeners`. -/
  maxL : MaxL
  /-- `private captureRejections`. -/
  capture : Bool
  /-- Allocator for wrapper identities (models object freshness). -/
  nextWid : Nat
deriving DecidableEq, Repr

/-- Listener array for an event, `[]` when the key is absent. -/
def eventsGet (st : St) (e : String) : List Entry := (getA st.events e).getD []

/-- Once-wrapper array for an event, `[]` when absent
(`this.onceListeners.get( event ) || []`). -/
def onceGet (st : St) (e : String) : List Entry := (getA st.onceL e).getD []

/-- Whether the max-listeners warning already fired for `e`. -/
def warnedGet (st : St) (e : String) : Bool := st.warned.contains e

/-- A fresh emitter: `new EventEmitter({ captureRejections })` with the
static default `defaultMaxListeners = 10`. -/
def initSt (capture : Bool) : St :=
  { events := [], onceL := [], warned := [], maxL := MaxL.fin 10
    capture := capture, nextWid := 0 }

/-- `wrapper.listener === listener`: the wrapper's stored back-reference
compared against a function reference.  A plain entry has no `.listener`
property (`undefined === f` is false), and a stored back-reference is a
user listener, never a wrapper object. -/
def wrapsListener : Entry → Entry → Bool
  | .wrapper _ _ l, .plain l2 => l == l2
  | _, _ => false

/-- `l === listener || ( 'listener' in l && l.listener === listener )`,
the identity test used by `listenerCount` and `removeAllListeners`. -/
def matchesListener (x : Entry) (L : Nat) : Bool :=
  match x with
  | .plain l2 => l2 == L
  | .wrapper _ _ l2 => l2 == L

/-- `EventEmitter.off`, with the removal target given as a function
reference (the public API passes a plain listener; a wrapper passes
itself when self-removing). -/
def off (st : St) (e : String) (target : Entry) : St :=
  match getA st.events e with
  | none => st
  | some arr =>
    let onceList := onceGet st e
    let onceWrappers := onceList.filter (fun w => wrapsListener w target)
    let originalListener :=
      match onceWrappers.getLast? with
      | some w => w
      | none => target
    let popped := onceList.filter (fun w => !(w == originalListener))
    let newArr := arr.filter (fun l => !(l == originalListener))
    let events1 :=
      if newArr.length ≤ 0 then delA st.events e else setA st.events e newArr
    let onceL1 :=
      if popped.length ≤ 0 then delA st.onceL e else setA st.onceL e popped
    { st with events := events1, onceL := onceL1 }

/-- Public `off( event, listener )` with a user-held (plain) listener. -/
def offP (st : St) (e : String) (l : Nat) : St := off st e (Entry.plain l)

/-- One observable output of the emitter. -/
inductive Ev where
  /-- A function reference was invoked with these arguments. -/
  | call (f : Entry) (args : List Nat)
  /-- A `MaxListenersExceededWarning` diagnostic for event `e` was
  delivered, reporting `count` attached listeners. -/
  | warn (e : String) (count : Nat)
deriving DecidableEq, Repr

/-- `this.events[ event ].length <= this.maxListeners` (the `Infinity`
case is unreachable in the source, having been checked earlier). -/
def lenLeMax (len : Nat) : MaxL → Bool
  | .fin n => (len : Int) ≤ n
  | .inf => true

/-- `private emitMaxListenersExceeded`: guard chain, then set the
per-event flag and deliver the one-time diagnostic. -/
def emitMaxListenersExceeded (st : St) (e : String) : St × List Ev :=
  if st.maxL = MaxL.fin 0 then (st, [])
  else if st.maxL = MaxL.inf then (st, [])
  else if warnedGet st e then (st, [])
  else
    match getA st.events e with
    | none => (st, [])
    | some arr =>
      if lenLeMax arr.length st.maxL then (st, [])
      else ({ st with warned := e :: st.warned }, [Ev.warn e arr.length])

/-- Core of `on`: `events[event] ||= []; events[event].push(x)` followed
by the max-listeners check, for an arbitrary function reference `x`. -/
def onEntry (st : St) (e : String) (x : Entry) : St × List Ev :=
  let st1 := { st with events := setA st.events e (eventsGet st e ++ [x]) }
  emitMaxListenersExceeded st1 e

/-- Core of `prepend`: `events[event] ||= []; events[event].unshift(x)`
followed by the max-listeners check. -/
def prependEntry (st : St) (e : String) (x : Entry) : St × List Ev :=
  let st1 := { st with events := setA st.events e (x :: eventsGet st e) }
  emitMaxListenersExceeded st1 e

/-- Public `on( event, listener )` (source alias `addListener`). -/
def addListener (st : St) (e : String) (l : Nat) : St × List Ev :=
  onEntry st e (Entry.plain l)

/-- Public `prepend( event, listener )` (source alias `prependListener`). -/
def prependListener (st : St) (e : String) (l : Nat) : St × List Ev :=
  prependEntry st e (Entry.plain l)

/-- `private createOnceWrapper`: make a fresh wrapper capturing the event
name and the original listener, and push it onto the once-index. -/
def createOnceWrapper (st : St) (e : String) (l : Nat) : Entry × St :=
  let w := Entry.wrapper st.nextWid e l
  ( w
  , { st with
        onceL := setA st.onceL e (onceGet st e ++ [w])
        nextWid := st.nextWid + 1 } )

/-- Public `once( event, listener )` = `on(event, createOnceWrapper(event, listener))`. -/
def once (st : St) (e : String) (l : Nat) : St × List Ev :=
  let (w, st1) := createOnceWrapper st e l
  onEntry st1 e w

/-- Public `prependOnce( event, listener )` = `prepend(event, createOnceWrapper(event, listener))`. -/
def prependOnce (st : St) (e : String) (l : Nat) : St × List Ev :=
  let (w, st1) := createOnceWrapper st e l
  prependEntry st1 e w

/-- `rawListeners( event )`: a shallow copy of the current array. -/
def rawListeners (st : St) (e : String) : List Entry := eventsGet st e

/-- `listenerCount( event, listener? )`. -/
def listenerCount (st : St) (e : String) (l? : Option Nat) : Nat :=
  match getA st.events e with
  | none => 0
  | some arr =>
    match l? with
    | none => arr.length
    | some L => (arr.filter (fun x => matchesListener x L)).length

/-- `removeAllListeners( event?, listener? )`.  The source tests the
event argument by truthiness (`if ( event )`), so the empty string takes
the same full-reset branch as an absent argument. -/
def removeAllListeners (st : St) (e? : Option String) (l? : Option Nat) : St :=
  match e? with
  | some e =>
    if e ≠ "" then
      match l? with
      | some L =>
        (rawListeners st e).foldl
          (fun s x => if matchesListener x L then offP s e L else s) st
      | none =>
        { st with events := delA st.events e, onceL := delA st.onceL e }
    else
      { st with events := [], onceL := [] }
  | none => { st with events := [], onceL := [] }

/-- One step a listener body can take; a `throwV` aborts the rest of the
body and propagates as a synchronous throw. -/
inductive Act where
  | onA (e : String) (l : Nat)
  | onceA (e : String) (l : Nat)
  | offA (e : String) (l : Nat)
  | emitA (e : String) (args : List Nat)
  | throwV (v : Nat)
deriving DecidableEq, Repr

/-- Assigns each plain-listener id its body. -/
abbrev Env := Nat → List Act

mutual

/-- `emit( event, ...args )`, fuel-indexed.  Returns the final state, the
observable trace, and `Except.error v` when a throw escapes the call. -/
def emitAux (env : Env) (fuel : Nat) (e : String) (args : List Nat)
    (st : St) : Option (St × List Ev × Except Nat Bool) :=
  match fuel with
  | 0 => none
  | fuel' + 1 =>
    match getA st.events e with
    | none => some (st, [], Except.ok false)
    | some arr =>
      match forEachE env fuel' arr e args st with
      | none => none
      | some (st1, tr, some v) => some (st1, tr, Except.error v)
      | some (st1, tr, none) => some (st1, tr, Except.ok true)

/-- The `forEach` loop body of `emit`, over the captured entry list:
invoke the entry; on a synchronous throw, either re-emit `"error"` and
continue, or propagate. -/
def forEachE (env : Env) (fuel : Nat) (entries : List Entry) (e : String)
    (args : List Nat) (st : St) : Option (St × List Ev × Option Nat) :=
  match fuel with
  | 0 => none
  | fuel' + 1 =>
    match entries with
    | [] => some (st, [], none)
    | x :: rest =>
      match callEntry env fuel' x args st with
      | none => none
      | some (st1, tr1, none) =>
        match forEachE env fuel' rest e args st1 with
        | none => none
        | some (st2, tr2, r) => some (st2, tr1 ++ tr2, r)
      | some (st1, tr1, some v) =>
        if st1.capture && !(e == "error") then
          match emitAux env fuel' "error" [v] st1 with
          | none => none
          | some (st2, tr2, Except.error v2) => some (st2, tr1 ++ tr2, some v2)
          | some (st2, tr2, Except.ok _) =>
            match forEachE env fuel' rest e args st2 with
            | none => none
            | some (st3, tr3, r) => some (st3, tr1 ++ tr2 ++ tr3, r)
        else
          some (st1, tr1, some v)

/-- Invoke one function reference with `args`.  A plain listener runs its
body; a wrapper first removes itself via `off` (with itself as the
target), then invokes its stored listener with the same arguments. -/
def callEntry (env : Env) (fuel : Nat) (x : Entry) (args : List Nat)
    (st : St) : Option (St × List Ev × Option Nat) :=
  match fuel with
  | 0 => none
  | fuel' + 1 =>
    match x with
    | Entry.plain l =>
      match runActs env fuel' (env l) st with
      | none => none
      | some (st1, tr, r) => some (st1, Ev.call (Entry.plain l) args :: tr, r)
    | Entry.wrapper wid we l =>
      let st1 := off st we (Entry.wrapper wid we l)
      match runActs env fuel' (env l) st1 with
      | none => none
      | some (st2, tr, r) =>
        some (st2, Ev.call (Entry.wrapper wid we l) args
                     :: Ev.call (Entry.plain l) args :: tr, r)

/-- Run a listener body.  An uncaught throw from a nested `emit` aborts
the rest of the body and propagates. -/
def runActs (env : Env) (fuel : Nat) (acts : List Act) (st : St) :
    Option (St × List Ev × Option Nat) :=
  match fuel with
  | 0 => none
  | fuel' + 1 =>
    match acts with
    | [] => some (st, [], none)
    | Act.throwV v :: _ => some (st, [], some v)
    | Act.onA e l :: rest =>
      let (st1, tr1) := addListener st e l
      match runActs env fuel' rest st1 with
      | none => none
      | some (st2, tr2, r) => some (st2, tr1 ++ tr2, r)
    | Act.onceA e l :: rest =>
      let (st1, tr1) := once st e l
      match runActs env fuel' rest st1 with
      | none => none
      | some (st2, tr2, r) => some (st2, tr1 ++ tr2, r)
    | Act.offA e l :: rest =>
      runActs env fuel' rest (offP st e l)
    | Act.emitA e args :: rest =>
      match emitAux env fuel' e args st with
      | none => none
      | some (st1, tr1, Except.error v) => some (st1, tr1, some v)
      | some (st1, tr1, Except.ok _) =>
        match runActs env fuel' rest st1 with
        | none => none
        | some (st2, tr2, r) => some (st2, tr1 ++ tr2, r)
end

/-- Public `emit`. -/
def emit (env : Env) (fuel : Nat) (st : St) (e : String) (args : List Nat) :
    Option (St × List Ev × Except Nat Bool) :=
  emitAux env fuel e args st

/-- One public mutating operation, for stating properties over arbitrary
operation sequences. -/
inductive TopOp where
  | onT (e : String) (l : Nat)
  | prependT (e : String) (l : Nat)
  | onceT (e : String) (l : Nat)
  | prependOnceT (e : String) (l : Nat)
  | offT (e : String) (l : Nat)
  | removeAllT (e? : Option String) (l? : Option Nat)
  | emitT (fuel : Nat) (e : String) (args : List Nat)
deriving Repr

/-- Apply one public operation; a fuel-exhausted `emit` contributes
nothing (exceeding the evaluator bound is not a program behaviour). -/
def applyTop (env : Env) (st : St) : TopOp → St × List Ev
  | .onT e l => addListener st e l
  | .prependT e l => prependListener st e l
  | .onceT e l => once st e l
  | .prependOnceT e l => prependOnce st e l
  | .offT e l => (offP st e l, [])
  | .removeAllT e? l? => (removeAllListeners st e? l?, [])
  | .emitT fuel e args =>
    match emitAux env fuel e args st with
    | none => (st, [])
    | some (st1, tr, _) => (st1, tr)

/-- Apply a sequence of public operations, accumulating the trace. -/
def applyTops (env : Env) (st : St) : List TopOp → St × List Ev
  | [] => (st, [])
  | op :: rest =>
    let (st1, tr1) := applyTop env st op
    let (st2, tr2) := applyTops env st1 rest
    (st2, tr1 ++ tr2)

/-- Number of max-listeners diagnostics for event `e` in a trace. -/
def warnCount (tr : List Ev) (e : String) : Nat :=
  (tr.filter (fun ev => match ev with
    | Ev.warn e2 _ => e2 == e
    | _ => false)).length

end EvE

namespace EvE

/-! ## Scenario environments -/

/-- Environment in which every listener body is empty: pure listeners
that return normally without touching the emitter. -/
def pureEnv : Env := fun _ => []

/-- Listener `0` removes listener `1` from `"e"` during its invocation;
everyone else is pure. -/
def removerEnv : Env := fun l => if l = 0 then [Act.offA "e" 1] else []

/-- Listener `0` registers listener `2` on `"e"` during its invocation;
everyone else is pure. -/
def adderEnv : Env := fun l => if l = 0 then [Act.onA "e" 2] else []

/-- Listener `0` throws `v`; everyone else is pure. -/
def throwerEnv (v : Nat) : Env := fun l => if l = 0 then [Act.throwV v] else []

/-- Listener `0` throws `v`, listener `2` (the `"error"` handler) throws
`w`; everyone else is pure. -/
def doubleThrowerEnv (v w : Nat) : Env := fun l =>
  if l = 0 then [Act.throwV v] else if l = 2 then [Act.throwV w] else []

/-- A state with listeners `0`, `1` on event `X` and the `"error"`
handler `2`, rejection capture as given. -/
def twoPlusHandlerSt (X : String) (capture : Bool) : St :=
  { events := [(X, [Entry.plain 0, Entry.plain 1]), ("error", [Entry.plain 2])]
    onceL := [], warned := [], maxL := MaxL.fin 10
    capture := capture, nextWid := 0 }

/-- Every entry of `arr` is a plain listener whose body is empty: the
pure listeners of the ordering property. -/
def PureEntries (env : Env) (arr : List Entry) : Prop :=
  ∀ x ∈ arr, ∃ l, x = Entry.plain l ∧ env l = []

/-- Concrete state for the `off` witness: plain listener `9` followed by
a once-wrapper for listener `7` on `"e"`, the wrapper indexed. -/
def offWitnessSt : St :=
  { events := [("e", [Entry.plain 9, Entry.wrapper 3 "e" 7])]
    onceL := [("e", [Entry.wrapper 3 "e" 7])]
    warned := [], maxL := MaxL.fin 10, capture := false, nextWid := 4 }

/-- Main-registry/once-index consistency: every once-index entry for an
event is a wrapper that also sits in that event's listener array, and
every wrapper in a listener array sits in that event's once-index. -/
def GoodSt (st : St) : Prop := ∀ e : String,
  (∀ x ∈ onceGet st e, x.isWrapper = true ∧ x ∈ eventsGet st e) ∧
  (∀ x ∈ eventsGet st e, x.isWrapper = true → x ∈ onceGet st e)

/-- Warning discipline of one computation, relating its pre-state, its
emitted trace, and its post-state: the per-event flag never resets, a
diagnostic for an event is emitted at most once and only when the flag
was clear, and an emitted diagnostic sets the flag. -/
def WRel (st : St) (tr : List Ev) (st2 : St) : Prop := ∀ e : String,
  (warnedGet st e = true → warnedGet st2 e = true) ∧
  (warnCount tr e ≤ if warnedGet st e then 0 else 1) ∧
  (1 ≤ warnCount tr e → warnedGet st2 e = true)

/-- Preservation property of one computation step: it keeps the
registry/once-index consistency and obeys the warning discipline. -/
def Pres (st : St) (tr : List Ev) (st2 : St) : Prop :=
  (GoodSt st → GoodSt st2) ∧ WRel st tr st2

/-- The wrapper subsequence of an event's listener array, for stating
the claimed positional agreement with the once-index. -/
def wrapperSubseq (st : St) (e : String) : List Entry :=
  (eventsGet st e).filter Entry.isWrapper

end EvE

namespace EvE

/-! ## Claim theorems -/

/-! ### Association-list and filter helper lemmas -/

theorem getA_setA_self {α : Type} (m : List (String × α)) (k : String) (v : α) :
    getA (setA m k v) k = some v := by
  induction m with
  | nil => simp [getA, setA]
  | cons p rest ih =>
    by_cases h : p.1 = k <;> simp [getA, setA, h, ih]

theorem getA_setA_ne {α : Type} (m : List (String × α)) (k k2 : String) (v : α)
    (h : k ≠ k2) : getA (setA m k v) k2 = getA m k2 := by
  induction m with
  | nil => simp [getA, setA, h]
  | cons p rest ih =>
    by_cases h2 : p.1 = k <;> simp [getA, setA, h2, ih]
    · subst h2; simp [getA, h]

theorem getA_delA_self {α : Type} (m : List (String × α)) (k : String) :
    getA (delA m k) k = none := by
  induction m with
  | nil => simp [getA, delA]
  | cons p rest ih =>
    by_cases h : p.1 = k <;> simp [getA, delA, h] at ih ⊢ <;> simp [ih]

theorem getA_delA_ne {α : Type} (m : List (String × α)) (k k2 : String)
    (h : k ≠ k2) : getA (delA m k) k2 = getA m k2 := by
  induction m with
  | nil => simp [getA, delA]
  | cons p rest ih =>
    by_cases h2 : p.1 = k <;> by_cases h3 : p.1 = k2 <;>
      simp [getA, delA, h2, h3] at ih ⊢ <;> simp_all [getA]

theorem filter_ne_of_not_mem {l : List Entry} {w : Entry} (h : w ∉ l) :
    l.filter (fun x => !(x == w)) = l := by
  induction l with
  | nil => rfl
  | cons x rest ih =>
    simp only [List.mem_cons, not_or] at h
    simp [List.filter_cons, Ne.symm h.1, ih h.2]

theorem filter_nil_of_all_false {p : Entry → Bool} {l : List Entry}
    (h : ∀ x ∈ l, p x = false) : l.filter p = [] := by
  induction l with
  | nil => rfl
  | cons x rest ih =>
    simp [List.filter_cons, h x (by simp), ih (fun y hy => h y (by simp [hy]))]

/-- C2 (code bug demonstration): with the same listener reference `5`
registered twice via plain `on`, a single `off` call empties the event
(the source filters out *every* entry reference-equal to the target),
whereas the claim — and the `off` doc comment in the source — require
each call to remove at most one instance, so the count after one call
should be `1`. -/
theorem off_clears_all_duplicate_plain_registrations :
    listenerCount
      ((applyTops pureEnv (initSt false) [TopOp.onT "e" 5, TopOp.onT "e" 5]).1)
      "e" none = 2 ∧
    listenerCount
      ((applyTops pureEnv (initSt false)
        [TopOp.onT "e" 5, TopOp.onT "e" 5, TopOp.offT "e" 5]).1)
      "e" none = 0 := by
  constructor <;> rfl

/-- C3: on a fresh emitter, `once(e, l)` followed by two `emit` calls
invokes `l` exactly once, with the arguments of the first emission, and
leaves both registries empty (the wrapper removed itself from both);
moreover a listener that synchronously re-emits the same event from
within its invocation is not re-triggered: the trace still contains
exactly one invocation of `l`. -/
theorem once_invokes_exactly_once_with_first_args
    (e : String) (l : Nat) (args1 args2 : List Nat) :
    applyTops pureEnv (initSt false)
      [TopOp.onceT e l, TopOp.emitT 50 e args1, TopOp.emitT 50 e args2]
      = ({ initSt false with nextWid := 1 },
         [Ev.call (Entry.wrapper 0 e l) args1, Ev.call (Entry.plain l) args1]) ∧
    applyTops (fun l2 => if l2 = l then [Act.emitA e args2] else [])
      (initSt false) [TopOp.onceT e l, TopOp.emitT 50 e args1]
      = ({ initSt false with nextWid := 1 },
         [Ev.call (Entry.wrapper 0 e l) args1, Ev.call (Entry.plain l) args1]) := by
  constructor <;>
    simp [applyTops, applyTop, once, createOnceWrapper, onEntry,
          emitMaxListenersExceeded, emitAux, forEachE, callEntry, runActs,
          off, offP, eventsGet, onceGet, warnedGet, getA, setA, delA,
          lenLeMax, pureEnv, initSt, wrapsListener]

/-- C4 (counterexample): iteration during `emit` is *not* a live view.
With listeners `0`, `1` registered on `"e"` and listener `0` removing
listener `1` during the emission, listener `1` is invoked anyway (the
registry array is replaced by `off`, while `forEach` keeps walking the
captured array), even though the final state shows it removed.  And with
listener `0` appending listener `2` during the emission, listener `2` is
not invoked in that emission even though the final state contains it. -/
theorem emit_iteration_is_snapshot_counterexample :
    applyTops removerEnv (initSt false)
      [TopOp.onT "e" 0, TopOp.onT "e" 1, TopOp.emitT 50 "e" [9]]
      = ({ initSt false with events := [("e", [Entry.plain 0])] },
         [Ev.call (Entry.plain 0) [9], Ev.call (Entry.plain 1) [9]]) ∧
    applyTops adderEnv (initSt false)
      [TopOp.onT "e" 0, TopOp.onT "e" 1, TopOp.emitT 50 "e" [9]]
      = ({ initSt false with
            events := [("e", [Entry.plain 0, Entry.plain 1, Entry.plain 2])] },
         [Ev.call (Entry.plain 0) [9], Ev.call (Entry.plain 1) [9]]) := by
  constructor <;> rfl

/-- C4 (amended): during a single `emit`, iteration proceeds over the
entry sequence captured when the dispatch began: an entry removed via
`off` by an earlier listener of the same emission is still invoked, an
entry appended via `on` by an earlier listener is not invoked in that
emission, and each captured entry is invoked exactly once — while the
mutations do take effect in the resulting state. -/
theorem emit_iteration_is_snapshot (args : List Nat) :
    applyTops removerEnv (initSt false)
      [TopOp.onT "e" 0, TopOp.onT "e" 1, TopOp.emitT 50 "e" args]
      = ({ initSt false with events := [("e", [Entry.plain 0])] },
         [Ev.call (Entry.plain 0) args, Ev.call (Entry.plain 1) args]) ∧
    applyTops adderEnv (initSt false)
      [TopOp.onT "e" 0, TopOp.onT "e" 1, TopOp.emitT 50 "e" args]
      = ({ initSt false with
            events := [("e", [Entry.plain 0, Entry.plain 1, Entry.plain 2])] },
         [Ev.call (Entry.plain 0) args, Ev.call (Entry.plain 1) args]) := by
  constructor <;> rfl

/-- C5: with `captureRejections: true` and any event `X ≠ "error"`, a
listener of `X` that throws `v` synchronously causes `emit("error", v)`
to be dispatched (the handler is invoked with the thrown value as sole
argument), the remaining entry of the original emission still runs, and
`emit` returns `true` without propagating the throw. -/
theorem capture_reroutes_throw_to_error_event
    (X : String) (hX : X ≠ "error") (args : List Nat) (v : Nat) :
    emit (throwerEnv v) 50 (twoPlusHandlerSt X true) X args
      = some (twoPlusHandlerSt X true,
          [Ev.call (Entry.plain 0) args, Ev.call (Entry.plain 2) [v],
           Ev.call (Entry.plain 1) args],
          Except.ok true) := by
  simp [emit, emitAux, forEachE, callEntry, runActs, twoPlusHandlerSt,
        throwerEnv, getA, eventsGet, hX]

/-- C5 witness. -/
theorem capture_reroutes_throw_to_error_event_witness :
    emit (throwerEnv 42) 50 (twoPlusHandlerSt "x" true) "x" [7]
      = some (twoPlusHandlerSt "x" true,
          [Ev.call (Entry.plain 0) [7], Ev.call (Entry.plain 2) [42],
           Ev.call (Entry.plain 1) [7]],
          Except.ok true) :=
  capture_reroutes_throw_to_error_event "x" (by decide) [7] 42

/-- C6: a synchronous listener throw propagates out of `emit` and aborts
the remaining entries exactly when rejection capture is off, or when the
dispatch in which the throw occurs is itself for `"error"`: (a) with
capture off, the throw `v` escapes and listener `1` never runs; (b) with
capture on, a throwing `"error"` listener's throw escapes the `emit`
call; (c) with capture on and `X ≠ "error"`, a throw `v` in `X`'s
dispatch is rerouted into `emit("error", v)`, and when the `"error"`
handler itself throws `w`, that throw escapes the original `emit(X)`
call (no re-reroute into another `"error"` emission) and aborts the rest
of `X`'s dispatch. -/
theorem throw_propagation_policy
    (X : String) (hX : X ≠ "error") (args : List Nat) (v w : Nat) :
    emit (throwerEnv v) 50 (twoPlusHandlerSt X false) X args
      = some (twoPlusHandlerSt X false, [Ev.call (Entry.plain 0) args],
          Except.error v) ∧
    emit (throwerEnv v) 50
      { initSt true with events := [("error", [Entry.plain 0, Entry.plain 1])] }
      "error" args
      = some ({ initSt true with
                  events := [("error", [Entry.plain 0, Entry.plain 1])] },
          [Ev.call (Entry.plain 0) args], Except.error v) ∧
    emit (doubleThrowerEnv v w) 50 (twoPlusHandlerSt X true) X args
      = some (twoPlusHandlerSt X true,
          [Ev.call (Entry.plain 0) args, Ev.call (Entry.plain 2) [v]],
          Except.error w) := by
  refine ⟨?_, ?_, ?_⟩ <;>
    simp [emit, emitAux, forEachE, callEntry, runActs, twoPlusHandlerSt,
          throwerEnv, doubleThrowerEnv, getA, eventsGet, initSt, hX]

/-- C6 witness. -/
theorem throw_propagation_policy_witness :
    emit (throwerEnv 42) 50 (twoPlusHandlerSt "x" false) "x" [7]
      = some (twoPlusHandlerSt "x" false, [Ev.call (Entry.plain 0) [7]],
          Except.error 42) :=
  (throw_propagation_policy "x" (by decide) [7] 42 43).1

/-- C10: `removeAllListeners` tests its event argument by truthiness, so
calling it with the (falsy) empty-string event name clears the whole
registry and once-index — every event's listener list becomes empty, not
just the empty-named event's — as shown both for an arbitrary state and
on a concrete emitter holding listeners under `""` and under `"x"`. -/
theorem removeAllListeners_empty_string_clears_everything :
    (∀ (st : St) (e : String),
        eventsGet (removeAllListeners st (some "") none) e = [] ∧
        onceGet (removeAllListeners st (some "") none) e = []) ∧
    listenerCount
      (removeAllListeners
        ((applyTops pureEnv (initSt false) [TopOp.onT "" 0, TopOp.onT "x" 1]).1)
        (some "") none)
      "x" none = 0 := by
  refine ⟨fun st e => ?_, rfl⟩
  simp [removeAllListeners, eventsGet, onceGet, getA]

end EvE

namespace EvE

/-! ### One-step unfolding equations for the fuel-indexed evaluator -/

theorem emitAux_step (env : Env) (fuel : Nat) (e : String) (args : List Nat)
    (st : St) :
    emitAux env (fuel + 1) e args st
      = (match getA st.events e with
        | none => some (st, [], Except.ok false)
        | some arr =>
          match forEachE env fuel arr e args st with
          | none => none
          | some (st1, tr, some v) => some (st1, tr, Except.error v)
          | some (st1, tr, none) => some (st1, tr, Except.ok true)) := rfl

theorem forEachE_nil (env : Env) (fuel : Nat) (e : String) (args : List Nat)
    (st : St) : forEachE env (fuel + 1) [] e args st = some (st, [], none) := rfl

theorem forEachE_cons (env : Env) (fuel : Nat) (x : Entry) (rest : List Entry)
    (e : String) (args : List Nat) (st : St) :
    forEachE env (fuel + 1) (x :: rest) e args st
      = (match callEntry env fuel x args st with
        | none => none
        | some (st1, tr1, none) =>
          match forEachE env fuel rest e args st1 with
          | none => none
          | some (st2, tr2, r) => some (st2, tr1 ++ tr2, r)
        | some (st1, tr1, some v) =>
          if st1.capture && !(e == "error") then
            match emitAux env fuel "error" [v] st1 with
            | none => none
            | some (st2, tr2, Except.error v2) => some (st2, tr1 ++ tr2, some v2)
            | some (st2, tr2, Except.ok _) =>
              match forEachE env fuel rest e args st2 with
              | none => none
              | some (st3, tr3, r) => some (st3, tr1 ++ tr2 ++ tr3, r)
          else some (st1, tr1, some v)) := rfl

theorem callEntry_plain (env : Env) (fuel : Nat) (l : Nat) (args : List Nat)
    (st : St) :
    callEntry env (fuel + 1) (Entry.plain l) args st
      = (match runActs env fuel (env l) st with
        | none => none
        | some (st1, tr, r) =>
          some (st1, Ev.call (Entry.plain l) args :: tr, r)) := rfl

theorem callEntry_wrapper (env : Env) (fuel : Nat) (wid : Nat) (we : String)
    (l : Nat) (args : List Nat) (st : St) :
    callEntry env (fuel + 1) (Entry.wrapper wid we l) args st
      = (match runActs env fuel (env l) (off st we (Entry.wrapper wid we l)) with
        | none => none
        | some (st2, tr, r) =>
          some (st2, Ev.call (Entry.wrapper wid we l) args
                       :: Ev.call (Entry.plain l) args :: tr, r)) := rfl

theorem runActs_nil (env : Env) (fuel : Nat) (st : St) :
    runActs env (fuel + 1) [] st = some (st, [], none) := rfl

theorem runActs_throw (env : Env) (fuel : Nat) (v : Nat) (rest : List Act)
    (st : St) :
    runActs env (fuel + 1) (Act.throwV v :: rest) st = some (st, [], some v) := rfl

theorem runActs_on (env : Env) (fuel : Nat) (e : String) (l : Nat)
    (rest : List Act) (st : St) :
    runActs env (fuel + 1) (Act.onA e l :: rest) st
      = (match runActs env fuel rest (addListener st e l).1 with
        | none => none
        | some (st2, tr2, r) => some (st2, (addListener st e l).2 ++ tr2, r)) := by
  rw [runActs]

theorem runActs_once (env : Env) (fuel : Nat) (e : String) (l : Nat)
    (rest : List Act) (st : St) :
    runActs env (fuel + 1) (Act.onceA e l :: rest) st
      = (match runActs env fuel rest (once st e l).1 with
        | none => none
        | some (st2, tr2, r) => some (st2, (once st e l).2 ++ tr2, r)) := by
  rw [runActs]

theorem runActs_off (env : Env) (fuel : Nat) (e : String) (l : Nat)
    (rest : List Act) (st : St) :
    runActs env (fuel + 1) (Act.offA e l :: rest) st
      = runActs env fuel rest (offP st e l) := rfl

theorem runActs_emit (env : Env) (fuel : Nat) (e : String) (args : List Nat)
    (rest : List Act) (st : St) :
    runActs env (fuel + 1) (Act.emitA e args :: rest) st
      = (match emitAux env fuel e args st with
        | none => none
        | some (st1, tr1, Except.error v) => some (st1, tr1, some v)
        | some (st1, tr1, Except.ok _) =>
          match runActs env fuel rest st1 with
          | none => none
          | some (st2, tr2, r) => some (st2, tr1 ++ tr2, r)) := rfl

/-- Helper for C1: over pure entries the `forEach` loop invokes each
captured entry once, in order, with the supplied arguments, and leaves
the state untouched. -/
theorem forEachE_pure (env : Env) (e : String) (args : List Nat) :
    ∀ (arr : List Entry) (fuel : Nat) (st : St),
      PureEntries env arr → 2 * arr.length + 1 ≤ fuel →
      forEachE env fuel arr e args st
        = some (st, arr.map (fun x => Ev.call x args), none) := by
  intro arr
  induction arr with
  | nil =>
    intro fuel st _ hf
    obtain ⟨f, rfl⟩ : ∃ f, fuel = f + 1 := ⟨fuel - 1, by omega⟩
    simp [forEachE]
  | cons x rest ih =>
    intro fuel st hp hf
    obtain ⟨l, hx, hl⟩ := hp x (by simp)
    subst hx
    simp only [List.length_cons] at hf
    obtain ⟨f, rfl⟩ : ∃ f, fuel = f + 3 := ⟨fuel - 3, by omega⟩
    have hrest : PureEntries env rest := fun y hy => hp y (by simp [hy])
    have hfr : 2 * rest.length + 1 ≤ f + 2 := by omega
    have hcall : callEntry env (f + 2) (Entry.plain l) args st
        = some (st, [Ev.call (Entry.plain l) args], none) := by
      rw [show f + 2 = (f + 1) + 1 from rfl, callEntry_plain, hl, runActs_nil]
    rw [show f + 3 = (f + 2) + 1 from rfl, forEachE_cons]
    simp only [hcall, ih (f + 2) st hrest hfr]
    simp

/-- C1: `emit` with no registered entries returns `false` with the state
unchanged and an empty trace (no side effects); with a registered entry
list of pure listeners it invokes each entry exactly once, in
registration order, passing the supplied arguments to each, returns
`true`, and leaves the state unchanged. -/
theorem emit_respects_registration_order (env : Env) (st : St) (e : String)
    (args : List Nat) :
    (getA st.events e = none →
      ∀ fuel, emitAux env (fuel + 1) e args st = some (st, [], Except.ok false)) ∧
    (∀ arr fuel, getA st.events e = some arr →
      PureEntries env arr → 2 * arr.length + 2 ≤ fuel →
      emitAux env fuel e args st
        = some (st, arr.map (fun x => Ev.call x args), Except.ok true)) := by
  constructor
  · intro h fuel
    rw [emitAux_step]
    simp [h]
  · intro arr fuel h hp hf
    obtain ⟨f, rfl⟩ : ∃ f, fuel = f + 1 := ⟨fuel - 1, by omega⟩
    rw [emitAux_step]
    simp only [h, forEachE_pure env e args arr f st hp (by omega)]

/-- C1 witness. -/
theorem emit_respects_registration_order_witness :
    emitAux pureEnv 8 "e" [3]
      { initSt false with events := [("e", [Entry.plain 0, Entry.plain 1])] }
      = some ({ initSt false with events := [("e", [Entry.plain 0, Entry.plain 1])] },
          [Ev.call (Entry.plain 0) [3], Ev.call (Entry.plain 1) [3]],
          Except.ok true) :=
  (emit_respects_registration_order pureEnv _ "e" [3]).2
    [Entry.plain 0, Entry.plain 1] 8 rfl
    (by intro x hx; fin_cases hx
        · exact ⟨0, rfl, rfl⟩
        · exact ⟨1, rfl, rfl⟩)
    (by simp)

/-- C7: (i) on a fresh emitter, after `on(e,5); once(e,5); off(e,5)` the
once registration is the one removed, leaving the plain listener; (ii)
when the once-index for the event holds a most recent wrapper `w` whose
stored original listener equals `L` (nothing after it matches `L`),
`off` removes exactly the entry `w` from the main sequence and from the
once-index, leaving everything else — in particular any plain `L`
entries — in place; (iii) when no once-wrapper for the event wraps `L`,
the removal target falls back to the plain listener reference `L`
itself. -/
theorem off_prefers_most_recent_matching_wrapper :
    ((applyTops pureEnv (initSt false)
        [TopOp.onT "e" 5, TopOp.onceT "e" 5, TopOp.offT "e" 5]).1
      = { initSt false with events := [("e", [Entry.plain 5])], nextWid := 1 }) ∧
    (∀ (st : St) (e : String) (L : Nat) (arr pre post a1 a2 : List Entry)
        (w : Entry),
      getA st.events e = some arr →
      onceGet st e = pre ++ w :: post →
      wrapsListener w (Entry.plain L) = true →
      (∀ w2 ∈ post, wrapsListener w2 (Entry.plain L) = false) →
      w ∉ pre → w ∉ post →
      arr = a1 ++ w :: a2 → w ∉ a1 → w ∉ a2 →
      eventsGet (offP st e L) e = a1 ++ a2 ∧
      onceGet (offP st e L) e = pre ++ post) ∧
    (∀ (st : St) (e : String) (L : Nat) (arr : List Entry),
      getA st.events e = some arr →
      (∀ w2 ∈ onceGet st e, wrapsListener w2 (Entry.plain L) = false) →
      eventsGet (offP st e L) e
        = arr.filter (fun x => !(x == Entry.plain L))) := by
  refine ⟨by rfl, ?_, ?_⟩
  · intro st e L arr pre post a1 a2 w harr honce hw hpost hwpre hwpost
      harrsplit hwa1 hwa2
    subst harrsplit
    have hmatch : (onceGet st e).filter (fun x => wrapsListener x (Entry.plain L))
        = pre.filter (fun x => wrapsListener x (Entry.plain L)) ++ [w] := by
      rw [honce]
      rw [show (w :: post) = [w] ++ post from rfl]
      rw [List.filter_append, List.filter_append]
      simp [hw, filter_nil_of_all_false hpost]
    have hlast : ((onceGet st e).filter
        (fun x => wrapsListener x (Entry.plain L))).getLast? = some w := by
      rw [hmatch, List.getLast?_concat]
    have hpopped : (onceGet st e).filter (fun x => !(x == w)) = pre ++ post := by
      rw [honce, show (w :: post) = [w] ++ post from rfl]
      rw [List.filter_append, List.filter_append]
      simp [filter_ne_of_not_mem hwpre, filter_ne_of_not_mem hwpost]
    have hnew : (a1 ++ w :: a2).filter (fun x => !(x == w)) = a1 ++ a2 := by
      rw [show (w :: a2) = [w] ++ a2 from rfl, List.filter_append,
        List.filter_append]
      simp [filter_ne_of_not_mem hwa1, filter_ne_of_not_mem hwa2]
    unfold offP off
    rw [harr]
    simp only [hlast, hpopped, hnew]
    constructor
    · by_cases h0 : a1 ++ a2 = []
      · simp [h0, eventsGet, getA_delA_self]
      · have hc : ¬(a1 = [] ∧ a2 = []) := by
          rintro ⟨rfl, rfl⟩; exact h0 rfl
        simp [hc, h0, Nat.le_zero, List.length_eq_zero, eventsGet, getA_setA_self]
    · by_cases h0 : pre ++ post = []
      · simp [h0, onceGet, getA_delA_self]
      · have hc : ¬(pre = [] ∧ post = []) := by
          rintro ⟨rfl, rfl⟩; exact h0 rfl
        simp [hc, h0, Nat.le_zero, List.length_eq_zero, onceGet, getA_setA_self]
  · intro st e L arr harr honce
    have hmatch : (onceGet st e).filter (fun x => wrapsListener x (Entry.plain L))
        = [] := filter_nil_of_all_false honce
    unfold offP off
    rw [harr]
    simp only [hmatch, List.getLast?_nil]
    by_cases h0 : arr.filter (fun x => !(x == Entry.plain L)) = []
    · simp [h0, eventsGet, getA_delA_self]
    · simp [h0, Nat.le_zero, List.length_eq_zero, eventsGet, getA_setA_self]

/-- C7 witness. -/
theorem off_prefers_most_recent_matching_wrapper_witness :
    eventsGet (offP offWitnessSt "e" 7) "e" = [Entry.plain 9] ∧
    onceGet (offP offWitnessSt "e" 7) "e" = [] :=
  off_prefers_most_recent_matching_wrapper.2.1 offWitnessSt "e" 7
    [Entry.plain 9, Entry.wrapper 3 "e" 7] [] [] [Entry.plain 9] []
    (Entry.wrapper 3 "e" 7) rfl rfl rfl (by decide) (by decide) (by decide)
    rfl (by decide) (by decide)

end EvE

namespace EvE

/-! ### Warning-discipline and preservation basics -/

theorem warnCount_nil (e : String) : warnCount [] e = 0 := rfl

theorem warnCount_append (t1 t2 : List Ev) (e : String) :
    warnCount (t1 ++ t2) e = warnCount t1 e + warnCount t2 e := by
  simp [warnCount, List.filter_append]

theorem warnCount_cons_call (f : Entry) (a : List Nat) (tr : List Ev)
    (e : String) : warnCount (Ev.call f a :: tr) e = warnCount tr e := by
  simp [warnCount]

theorem WRel_refl (st : St) : WRel st [] st := by
  intro e
  refine ⟨fun h => h, ?_, ?_⟩ <;> simp [warnCount_nil]

theorem WRel_of_warned_eq {st st2 : St} (h : st2.warned = st.warned) :
    WRel st [] st2 := by
  have hw : ∀ e, warnedGet st2 e = warnedGet st e := by
    intro e; unfold warnedGet; rw [h]
  intro e
  exact ⟨fun h2 => by rw [hw]; exact h2, by simp [warnCount_nil],
    by simp [warnCount_nil]⟩

theorem Pres_refl (st : St) : Pres st [] st :=
  ⟨fun h => h, WRel_refl st⟩

theorem Pres_comp {st st1 st2 : St} {t1 t2 : List Ev}
    (h1 : Pres st t1 st1) (h2 : Pres st1 t2 st2) :
    Pres st (t1 ++ t2) st2 := by
  obtain ⟨g1, w1⟩ := h1
  obtain ⟨g2, w2⟩ := h2
  refine ⟨fun hg => g2 (g1 hg), fun e => ?_⟩
  obtain ⟨m1, b1, s1⟩ := w1 e
  obtain ⟨m2, b2, s2⟩ := w2 e
  refine ⟨fun h => m2 (m1 h), ?_, ?_⟩
  · rw [warnCount_append]
    cases hw : warnedGet st e with
    | true =>
      have hb1 : warnCount t1 e = 0 := by simpa [hw] using b1
      have hw1 : warnedGet st1 e = true := m1 hw
      have hb2 : warnCount t2 e = 0 := by simpa [hw1] using b2
      simp [hw, hb1, hb2]
    | false =>
      simp only [hw, Bool.false_eq_true, if_false]
      rcases Nat.lt_or_ge (warnCount t1 e) 1 with hlt | hge
      · have hb2 : warnCount t2 e ≤ 1 := le_trans b2 (by split <;> omega)
        omega
      · have hw1 : warnedGet st1 e = true := s1 hge
        have hb2 : warnCount t2 e = 0 := by simpa [hw1] using b2
        have hb1 : warnCount t1 e ≤ 1 := by simpa [hw] using b1
        omega
  · rw [warnCount_append]
    intro hone
    rcases Nat.lt_or_ge (warnCount t2 e) 1 with hlt | hge2
    · exact m2 (s1 (by omega))
    · exact s2 hge2

theorem Pres_cons_call {st st2 : St} {tr : List Ev} (f : Entry) (a : List Nat)
    (h : Pres st tr st2) : Pres st (Ev.call f a :: tr) st2 := by
  obtain ⟨g, w⟩ := h
  refine ⟨g, fun e => ?_⟩
  obtain ⟨m, b, s⟩ := w e
  exact ⟨m, by rw [warnCount_cons_call]; exact b,
    by rw [warnCount_cons_call]; exact s⟩

/-! ### Branch-value helpers for `off` -/

theorem getA_branch_self (m : List (String × List Entry)) (e : String)
    (v : List Entry) :
    (getA (if v.length ≤ 0 then delA m e else setA m e v) e).getD [] = v := by
  by_cases h0 : v = []
  · simp [h0, getA_delA_self]
  · simp [h0, Nat.le_zero, List.length_eq_zero, getA_setA_self]

theorem getA_branch_ne (m : List (String × List Entry)) (e k : String)
    (v : List Entry) (h : e ≠ k) :
    getA (if v.length ≤ 0 then delA m e else setA m e v) k = getA m k := by
  split
  · exact getA_delA_ne m e k h
  · exact getA_setA_ne m e k v h

end EvE

namespace EvE

/-! ### Preservation lemmas for `off` -/

theorem off_noop {st : St} {e : String} (tgt : Entry)
    (h : getA st.events e = none) : off st e tgt = st := by
  unfold off
  rw [h]

/-- `off` on a present event filters one and the same target identity
out of both the listener array and the once-index, leaves other events'
entries alone, and leaves the warning flags alone. -/
theorem off_filters (st : St) (e : String) (tgt : Entry) (arr : List Entry)
    (h : getA st.events e = some arr) :
    ∃ t, eventsGet (off st e tgt) e = arr.filter (fun x => !(x == t)) ∧
      onceGet (off st e tgt) e = (onceGet st e).filter (fun x => !(x == t)) ∧
      (∀ k, e ≠ k → getA (off st e tgt).events k = getA st.events k) ∧
      (∀ k, e ≠ k → getA (off st e tgt).onceL k = getA st.onceL k) ∧
      (off st e tgt).warned = st.warned := by
  unfold off
  rw [h]
  refine ⟨match ((onceGet st e).filter fun w => wrapsListener w tgt).getLast? with
    | some w => w
    | none => tgt, ?_, ?_, ?_, ?_, rfl⟩
  · exact getA_branch_self st.events e _
  · exact getA_branch_self st.onceL e _
  · exact fun k hk => getA_branch_ne st.events e k _ hk
  · exact fun k hk => getA_branch_ne st.onceL e k _ hk

theorem off_warned_eq (st : St) (e : String) (tgt : Entry) :
    (off st e tgt).warned = st.warned := by
  cases h : getA st.events e with
  | none => rw [off_noop tgt h]
  | some arr => exact (off_filters st e tgt arr h).choose_spec.2.2.2.2

theorem goodSt_off {st : St} (e : String) (tgt : Entry) (hg : GoodSt st) :
    GoodSt (off st e tgt) := by
  cases harr : getA st.events e with
  | none => rw [off_noop tgt harr]; exact hg
  | some arr =>
    obtain ⟨t, hev, honc, hevf, honf, -⟩ := off_filters st e tgt arr harr
    have harr2 : eventsGet st e = arr := by simp [eventsGet, harr]
    intro k
    by_cases hk : e = k
    · subst hk
      constructor
      · intro x hx
        rw [honc, List.mem_filter] at hx
        obtain ⟨hx1, hx2⟩ := hx
        obtain ⟨hw, hm⟩ := (hg e).1 x hx1
        refine ⟨hw, ?_⟩
        rw [hev, List.mem_filter, ← harr2]
        exact ⟨hm, hx2⟩
      · intro x hx hw
        rw [hev, List.mem_filter] at hx
        obtain ⟨hx1, hx2⟩ := hx
        have hm := (hg e).2 x (by rw [harr2]; exact hx1) hw
        rw [honc, List.mem_filter]
        exact ⟨hm, hx2⟩
    · have h1 : eventsGet (off st e tgt) k = eventsGet st k := by
        simp [eventsGet, hevf k hk]
      have h2 : onceGet (off st e tgt) k = onceGet st k := by
        simp [onceGet, honf k hk]
      simp only [h1, h2]
      exact hg k

theorem pres_off (st : St) (e : String) (tgt : Entry) :
    Pres st [] (off st e tgt) :=
  ⟨goodSt_off e tgt, WRel_of_warned_eq (off_warned_eq st e tgt)⟩

theorem pres_offP (st : St) (e : String) (l : Nat) :
    Pres st [] (offP st e l) := pres_off st e (Entry.plain l)

end EvE

namespace EvE

/-! ### Preservation lemmas for registration and bulk removal -/

theorem warnCount_single (e k : String) (c : Nat) :
    warnCount [Ev.warn e c] k = if e = k then 1 else 0 := by
  by_cases h : e = k <;> simp [warnCount, h]

theorem pres_emitMax (st : St) (e : String) :
    Pres st (emitMaxListenersExceeded st e).2 (emitMaxListenersExceeded st e).1 := by
  unfold emitMaxListenersExceeded
  split_ifs with h1 h2 h3
  · exact Pres_refl st
  · exact Pres_refl st
  · exact Pres_refl st
  · cases h4 : getA st.events e with
    | none => exact Pres_refl st
    | some arr =>
      dsimp only
      split_ifs with h5
      · exact Pres_refl st
      · refine ⟨fun hg => hg, fun k => ⟨?_, ?_, ?_⟩⟩
        · intro hw
          simp [warnedGet] at hw ⊢
          exact Or.inr hw
        · rw [warnCount_single]
          by_cases hk : e = k
          · subst hk
            simp [h3]
          · simp [hk]
        · rw [warnCount_single]
          intro hone
          have hk : e = k := by
            by_contra hc
            simp [hc] at hone
          subst hk
          simp [warnedGet]

/-- Point-wise transport of the registry/once-index consistency through
a state whose two registries changed only at event `e`. -/
theorem goodSt_of_updates (st st2 : St) (e : String) (vev von : List Entry)
    (hev : eventsGet st2 e = vev) (hon : onceGet st2 e = von)
    (hevf : ∀ k, e ≠ k → eventsGet st2 k = eventsGet st k)
    (honf : ∀ k, e ≠ k → onceGet st2 k = onceGet st k)
    (h1 : ∀ x ∈ von, x.isWrapper = true ∧ x ∈ vev)
    (h2 : ∀ x ∈ vev, x.isWrapper = true → x ∈ von)
    (hg : GoodSt st) : GoodSt st2 := by
  intro k
  by_cases hk : e = k
  · subst hk
    rw [hev, hon]
    exact ⟨h1, h2⟩
  · rw [hevf k hk, honf k hk]
    exact hg k

theorem pres_addListener (st : St) (e : String) (l : Nat) :
    Pres st (addListener st e l).2 (addListener st e l).1 := by
  have hins : Pres st []
      { st with events := setA st.events e (eventsGet st e ++ [Entry.plain l]) } := by
    refine ⟨fun hg => goodSt_of_updates st _ e (eventsGet st e ++ [Entry.plain l])
      (onceGet st e) ?_ rfl ?_ (fun k hk => rfl) ?_ ?_ hg,
      WRel_of_warned_eq rfl⟩
    · simp [eventsGet, getA_setA_self]
    · intro k hk
      simp [eventsGet, getA_setA_ne _ _ _ _ hk]
    · intro x hx
      obtain ⟨hw, hm⟩ := (hg e).1 x hx
      exact ⟨hw, by simp [hm]⟩
    · intro x hx hw
      rcases List.mem_append.mp hx with h | h
      · exact (hg e).2 x h hw
      · simp at h
        subst h
        simp [Entry.isWrapper] at hw
  have hcomp := Pres_comp hins (pres_emitMax _ e)
  simpa [addListener, onEntry] using hcomp

theorem pres_prependListener (st : St) (e : String) (l : Nat) :
    Pres st (prependListener st e l).2 (prependListener st e l).1 := by
  have hins : Pres st []
      { st with events := setA st.events e (Entry.plain l :: eventsGet st e) } := by
    refine ⟨fun hg => goodSt_of_updates st _ e (Entry.plain l :: eventsGet st e)
      (onceGet st e) ?_ rfl ?_ (fun k hk => rfl) ?_ ?_ hg,
      WRel_of_warned_eq rfl⟩
    · simp [eventsGet, getA_setA_self]
    · intro k hk
      simp [eventsGet, getA_setA_ne _ _ _ _ hk]
    · intro x hx
      obtain ⟨hw, hm⟩ := (hg e).1 x hx
      exact ⟨hw, by simp [hm]⟩
    · intro x hx hw
      rcases List.mem_cons.mp hx with h | h
      · subst h
        simp [Entry.isWrapper] at hw
      · exact (hg e).2 x h hw
  have hcomp := Pres_comp hins (pres_emitMax _ e)
  simpa [prependListener, prependEntry] using hcomp

theorem pres_once (st : St) (e : String) (l : Nat) :
    Pres st (once st e l).2 (once st e l).1 := by
  have hins : Pres st []
      { st with
          events := setA st.events e
            (eventsGet st e ++ [Entry.wrapper st.nextWid e l])
          onceL := setA st.onceL e
            (onceGet st e ++ [Entry.wrapper st.nextWid e l])
          nextWid := st.nextWid + 1 } := by
    refine ⟨fun hg => goodSt_of_updates st _ e
      (eventsGet st e ++ [Entry.wrapper st.nextWid e l])
      (onceGet st e ++ [Entry.wrapper st.nextWid e l]) ?_ ?_ ?_ ?_ ?_ ?_ hg,
      WRel_of_warned_eq rfl⟩
    · simp [eventsGet, getA_setA_self]
    · simp [onceGet, getA_setA_self]
    · intro k hk
      simp [eventsGet, getA_setA_ne _ _ _ _ hk]
    · intro k hk
      simp [onceGet, getA_setA_ne _ _ _ _ hk]
    · intro x hx
      rcases List.mem_append.mp hx with h | h
      · obtain ⟨hw, hm⟩ := (hg e).1 x h
        exact ⟨hw, by simp [hm]⟩
      · simp at h
        subst h
        exact ⟨rfl, by simp⟩
    · intro x hx hw
      rcases List.mem_append.mp hx with h | h
      · have := (hg e).2 x h hw
        simp [this]
      · simp at h
        simp [h]
  have hcomp := Pres_comp hins (pres_emitMax _ e)
  simpa [once, createOnceWrapper, onEntry] using hcomp

theorem pres_prependOnce (st : St) (e : String) (l : Nat) :
    Pres st (prependOnce st e l).2 (prependOnce st e l).1 := by
  have hins : Pres st []
      { st with
          events := setA st.events e
            (Entry.wrapper st.nextWid e l :: eventsGet st e)
          onceL := setA st.onceL e
            (onceGet st e ++ [Entry.wrapper st.nextWid e l])
          nextWid := st.nextWid + 1 } := by
    refine ⟨fun hg => goodSt_of_updates st _ e
      (Entry.wrapper st.nextWid e l :: eventsGet st e)
      (onceGet st e ++ [Entry.wrapper st.nextWid e l]) ?_ ?_ ?_ ?_ ?_ ?_ hg,
      WRel_of_warned_eq rfl⟩
    · simp [eventsGet, getA_setA_self]
    · simp [onceGet, getA_setA_self]
    · intro k hk
      simp [eventsGet, getA_setA_ne _ _ _ _ hk]
    · intro k hk
      simp [onceGet, getA_setA_ne _ _ _ _ hk]
    · intro x hx
      rcases List.mem_append.mp hx with h | h
      · obtain ⟨hw, hm⟩ := (hg e).1 x h
        exact ⟨hw, by simp [hm]⟩
      · simp at h
        subst h
        exact ⟨rfl, by simp⟩
    · intro x hx hw
      rcases List.mem_cons.mp hx with h | h
      · simp [h]
      · have := (hg e).2 x h hw
        simp [this]
  have hcomp := Pres_comp hins (pres_emitMax _ e)
  simpa [prependOnce, createOnceWrapper, prependEntry] using hcomp

theorem pres_foldl_off (e : String) (L : Nat) :
    ∀ (xs : List Entry) (st : St),
      Pres st []
        (xs.foldl (fun s x => if matchesListener x L then offP s e L else s) st) := by
  intro xs
  induction xs with
  | nil => exact fun st => Pres_refl st
  | cons x rest ih =>
    intro st
    rw [List.foldl_cons]
    have hstep : Pres st [] (if matchesListener x L then offP st e L else st) := by
      split
      · exact pres_offP st e L
      · exact Pres_refl st
    have := Pres_comp hstep (ih _)
    simpa using this

theorem pres_removeAll (st : St) (e? : Option String) (l? : Option Nat) :
    Pres st [] (removeAllListeners st e? l?) := by
  have hclear : Pres st [] { st with events := [], onceL := [] } := by
    refine ⟨fun hg k => ?_, WRel_of_warned_eq rfl⟩
    constructor <;> simp [eventsGet, onceGet, getA]
  cases e? with
  | none => exact hclear
  | some e =>
    unfold removeAllListeners
    dsimp only
    split_ifs with he
    · cases l? with
      | none =>
        refine ⟨fun hg => goodSt_of_updates st _ e [] [] ?_ ?_ ?_ ?_ ?_ ?_ hg,
          WRel_of_warned_eq rfl⟩
        · simp [eventsGet, getA_delA_self]
        · simp [onceGet, getA_delA_self]
        · intro k hk
          simp [eventsGet, getA_delA_ne _ _ _ hk]
        · intro k hk
          simp [onceGet, getA_delA_ne _ _ _ hk]
        · simp
        · simp
      | some L => exact pres_foldl_off e L (rawListeners st e) st
    · exact hclear

end EvE

namespace EvE

/-! ### Preservation through the dispatch evaluator -/

theorem emitAux_zero (env : Env) (e : String) (args : List Nat) (st : St) :
    emitAux env 0 e args st = none := rfl

theorem forEachE_zero (env : Env) (entries : List Entry) (e : String)
    (args : List Nat) (st : St) : forEachE env 0 entries e args st = none := rfl

theorem callEntry_zero (env : Env) (x : Entry) (args : List Nat) (st : St) :
    callEntry env 0 x args st = none := rfl

theorem runActs_zero (env : Env) (acts : List Act) (st : St) :
    runActs env 0 acts st = none := rfl

/-- Every successful run of the evaluator — a whole `emit`, the
`forEach` loop, one entry invocation, or a listener body — preserves the
registry/once-index consistency and obeys the warning discipline. -/
theorem interpPres (env : Env) : ∀ fuel : Nat,
    (∀ e args st st2 tr r,
      emitAux env fuel e args st = some (st2, tr, r) → Pres st tr st2) ∧
    (∀ entries e args st st2 tr r,
      forEachE env fuel entries e args st = some (st2, tr, r) → Pres st tr st2) ∧
    (∀ x args st st2 tr r,
      callEntry env fuel x args st = some (st2, tr, r) → Pres st tr st2) ∧
    (∀ acts st st2 tr r,
      runActs env fuel acts st = some (st2, tr, r) → Pres st tr st2) := by
  intro fuel
  induction fuel with
  | zero =>
    exact ⟨fun e args st st2 tr r h => Option.noConfusion h,
      fun en e args st st2 tr r h => Option.noConfusion h,
      fun x args st st2 tr r h => Option.noConfusion h,
      fun a st st2 tr r h => Option.noConfusion h⟩
  | succ f ih =>
    obtain ⟨ihE, ihF, ihC, ihR⟩ := ih
    refine ⟨?_, ?_, ?_, ?_⟩
    · intro e args st st2 tr r h
      rw [emitAux_step] at h
      cases harr : getA st.events e with
      | none =>
        simp only [harr, Option.some.injEq, Prod.mk.injEq] at h
        obtain ⟨rfl, rfl, rfl⟩ := h
        exact Pres_refl st
      | some arr =>
        simp only [harr] at h
        cases hF : forEachE env f arr e args st with
        | none => simp [hF] at h
        | some trip =>
          obtain ⟨st1, tr1, ropt⟩ := trip
          cases ropt with
          | none =>
            simp only [hF, Option.some.injEq, Prod.mk.injEq] at h
            obtain ⟨rfl, rfl, rfl⟩ := h
            exact ihF _ _ _ _ _ _ _ hF
          | some v =>
            simp only [hF, Option.some.injEq, Prod.mk.injEq] at h
            obtain ⟨rfl, rfl, rfl⟩ := h
            exact ihF _ _ _ _ _ _ _ hF
    · intro entries e args st st2 tr r h
      cases entries with
      | nil =>
        rw [forEachE_nil] at h
        simp only [Option.some.injEq, Prod.mk.injEq] at h
        obtain ⟨rfl, rfl, rfl⟩ := h
        exact Pres_refl st
      | cons x rest =>
        rw [forEachE_cons] at h
        cases hc : callEntry env f x args st with
        | none => simp [hc] at h
        | some trip =>
          obtain ⟨st1, tr1, ropt⟩ := trip
          cases ropt with
          | none =>
            simp only [hc] at h
            cases hr : forEachE env f rest e args st1 with
            | none => simp [hr] at h
            | some trip2 =>
              obtain ⟨st2b, tr2, r2⟩ := trip2
              simp only [hr, Option.some.injEq, Prod.mk.injEq] at h
              obtain ⟨rfl, rfl, rfl⟩ := h
              exact Pres_comp (ihC _ _ _ _ _ _ hc) (ihF _ _ _ _ _ _ _ hr)
          | some v =>
            simp only [hc] at h
            by_cases hcap : (st1.capture && !(e == "error")) = true
            · rw [if_pos hcap] at h
              cases hE : emitAux env f "error" [v] st1 with
              | none => simp [hE] at h
              | some trip2 =>
                obtain ⟨st2b, tr2, er⟩ := trip2
                cases er with
                | error v2 =>
                  simp only [hE, Option.some.injEq, Prod.mk.injEq] at h
                  obtain ⟨rfl, rfl, rfl⟩ := h
                  exact Pres_comp (ihC _ _ _ _ _ _ hc) (ihE _ _ _ _ _ _ hE)
                | ok b =>
                  simp only [hE] at h
                  cases hr : forEachE env f rest e args st2b with
                  | none => simp [hr] at h
                  | some trip3 =>
                    obtain ⟨st3, tr3, r3⟩ := trip3
                    simp only [hr, Option.some.injEq, Prod.mk.injEq] at h
                    obtain ⟨rfl, rfl, rfl⟩ := h
                    exact Pres_comp
                      (Pres_comp (ihC _ _ _ _ _ _ hc) (ihE _ _ _ _ _ _ hE))
                      (ihF _ _ _ _ _ _ _ hr)
            · rw [if_neg hcap] at h
              simp only [Option.some.injEq, Prod.mk.injEq] at h
              obtain ⟨rfl, rfl, rfl⟩ := h
              exact ihC _ _ _ _ _ _ hc
    · intro x args st st2 tr r h
      cases x with
      | plain l =>
        rw [callEntry_plain] at h
        cases hR : runActs env f (env l) st with
        | none => simp [hR] at h
        | some trip =>
          obtain ⟨st1, tr1, r1⟩ := trip
          simp only [hR, Option.some.injEq, Prod.mk.injEq] at h
          obtain ⟨rfl, rfl, rfl⟩ := h
          exact Pres_cons_call _ _ (ihR _ _ _ _ _ hR)
      | wrapper wid we l =>
        rw [callEntry_wrapper] at h
        cases hR : runActs env f (env l) (off st we (Entry.wrapper wid we l)) with
        | none => simp [hR] at h
        | some trip =>
          obtain ⟨st1, tr1, r1⟩ := trip
          simp only [hR, Option.some.injEq, Prod.mk.injEq] at h
          obtain ⟨rfl, rfl, rfl⟩ := h
          have h1 := Pres_comp (pres_off st we (Entry.wrapper wid we l))
            (ihR _ _ _ _ _ hR)
          exact Pres_cons_call _ _ (Pres_cons_call _ _ (by simpa using h1))
    · intro acts st st2 tr r h
      cases acts with
      | nil =>
        rw [runActs_nil] at h
        simp only [Option.some.injEq, Prod.mk.injEq] at h
        obtain ⟨rfl, rfl, rfl⟩ := h
        exact Pres_refl st
      | cons a rest =>
        cases a with
        | throwV v =>
          rw [runActs_throw] at h
          simp only [Option.some.injEq, Prod.mk.injEq] at h
          obtain ⟨rfl, rfl, rfl⟩ := h
          exact Pres_refl st
        | onA e l =>
          rw [runActs_on] at h
          cases hR : runActs env f rest (addListener st e l).1 with
          | none => simp [hR] at h
          | some trip =>
            obtain ⟨st2b, tr2, r2⟩ := trip
            simp only [hR, Option.some.injEq, Prod.mk.injEq] at h
            obtain ⟨rfl, rfl, rfl⟩ := h
            exact Pres_comp (pres_addListener st e l) (ihR _ _ _ _ _ hR)
        | onceA e l =>
          rw [runActs_once] at h
          cases hR : runActs env f rest (once st e l).1 with
          | none => simp [hR] at h
          | some trip =>
            obtain ⟨st2b, tr2, r2⟩ := trip
            simp only [hR, Option.some.injEq, Prod.mk.injEq] at h
            obtain ⟨rfl, rfl, rfl⟩ := h
            exact Pres_comp (pres_once st e l) (ihR _ _ _ _ _ hR)
        | offA e l =>
          rw [runActs_off] at h
          have h1 := Pres_comp (pres_offP st e l) (ihR _ _ _ _ _ h)
          simpa using h1
        | emitA e2 args2 =>
          rw [runActs_emit] at h
          cases hE : emitAux env f e2 args2 st with
          | none => simp [hE] at h
          | some trip =>
            obtain ⟨st1, tr1, er⟩ := trip
            cases er with
            | error v =>
              simp only [hE, Option.some.injEq, Prod.mk.injEq] at h
              obtain ⟨rfl, rfl, rfl⟩ := h
              exact ihE _ _ _ _ _ _ hE
            | ok b =>
              simp only [hE] at h
              cases hR : runActs env f rest st1 with
              | none => simp [hR] at h
              | some trip2 =>
                obtain ⟨st2b, tr2, r2⟩ := trip2
                simp only [hR, Option.some.injEq, Prod.mk.injEq] at h
                obtain ⟨rfl, rfl, rfl⟩ := h
                exact Pres_comp (ihE _ _ _ _ _ _ hE) (ihR _ _ _ _ _ hR)

end EvE

namespace EvE

theorem pres_applyTop (env : Env) (st : St) (op : TopOp) :
    Pres st (applyTop env st op).2 (applyTop env st op).1 := by
  cases op with
  | onT e l => exact pres_addListener st e l
  | prependT e l => exact pres_prependListener st e l
  | onceT e l => exact pres_once st e l
  | prependOnceT e l => exact pres_prependOnce st e l
  | offT e l => exact pres_offP st e l
  | removeAllT e? l? => exact pres_removeAll st e? l?
  | emitT fuel e args =>
    dsimp only [applyTop]
    cases hE : emitAux env fuel e args st with
    | none => exact Pres_refl st
    | some trip =>
      obtain ⟨st1, tr, r⟩ := trip
      exact (interpPres env fuel).1 _ _ _ _ _ _ hE

theorem pres_applyTops (env : Env) : ∀ (ops : List TopOp) (st : St),
    Pres st (applyTops env st ops).2 (applyTops env st ops).1 := by
  intro ops
  induction ops with
  | nil => exact fun st => Pres_refl st
  | cons op rest ih =>
    intro st
    exact Pres_comp (pres_applyTop env st op) (ih (applyTop env st op).1)

theorem goodSt_init (c : Bool) : GoodSt (initSt c) := by
  intro e
  constructor <;> simp [onceGet, eventsGet, initSt, getA]

/-- C8 (counterexample): the claimed positional agreement between the
once-index and the main registry fails under a `once` / `prependOnce`
interleaving on the same event: `createOnceWrapper` always *pushes* the
wrapper onto the once-index, while `prependOnce` *unshifts* it into the
listener array, so after `once("e",0); prependOnce("e",1)` the wrapper
subsequence of `events["e"]` and `onceListeners["e"]` hold the same two
wrappers in opposite orders. -/
theorem once_index_position_counterexample :
    wrapperSubseq (applyTops pureEnv (initSt false)
        [TopOp.onceT "e" 0, TopOp.prependOnceT "e" 1]).1 "e"
      = [Entry.wrapper 1 "e" 1, Entry.wrapper 0 "e" 0] ∧
    onceGet (applyTops pureEnv (initSt false)
        [TopOp.onceT "e" 0, TopOp.prependOnceT "e" 1]).1 "e"
      = [Entry.wrapper 0 "e" 0, Entry.wrapper 1 "e" 1] ∧
    wrapperSubseq (applyTops pureEnv (initSt false)
        [TopOp.onceT "e" 0, TopOp.prependOnceT "e" 1]).1 "e"
      ≠ onceGet (applyTops pureEnv (initSt false)
        [TopOp.onceT "e" 0, TopOp.prependOnceT "e" 1]).1 "e" := by
  refine ⟨rfl, rfl, ?_⟩
  decide

/-- C8 (amended): after every sequence of public mutating operations
(`on`, `prepend`, `once`, `prependOnce`, `off`, `removeAllListeners`,
and `emit` with listeners running arbitrary scripts) starting from a
fresh emitter, the once-index and the main registry agree on wrapper
*membership* for every event: every entry of `onceListeners[e]` is a
wrapper that also appears in `events[e]`, and every wrapper entry of
`events[e]` appears in `onceListeners[e]` — but not necessarily at the
same relative position. -/
theorem once_index_and_registry_agree_on_membership
    (env : Env) (c : Bool) (ops : List TopOp) (e : String) :
    (∀ x ∈ onceGet (applyTops env (initSt c) ops).1 e,
      x.isWrapper = true ∧ x ∈ eventsGet (applyTops env (initSt c) ops).1 e) ∧
    (∀ x ∈ eventsGet (applyTops env (initSt c) ops).1 e,
      x.isWrapper = true → x ∈ onceGet (applyTops env (initSt c) ops).1 e) :=
  ((pres_applyTops env ops (initSt c)).1 (goodSt_init c)) e

/-- C8 witness. -/
theorem once_index_and_registry_agree_on_membership_witness :
    Entry.isWrapper (Entry.wrapper 0 "e" 3) = true ∧
    Entry.wrapper 0 "e" 3
      ∈ eventsGet (applyTops pureEnv (initSt false) [TopOp.onceT "e" 3]).1 "e" :=
  (once_index_and_registry_agree_on_membership pureEnv false
    [TopOp.onceT "e" 3] "e").1 (Entry.wrapper 0 "e" 3) (by decide)

/-- C9: over every sequence of public operations on a fresh emitter —
however many registrations it contains and whatever the listeners do —
at most one max-listeners diagnostic is delivered per event name; and
the check emits nothing when the ceiling is `0`, when it is `Infinity`,
when the warning flag for the event is already set, when the event has
no entries, or when the entry count does not strictly exceed the
ceiling. -/
theorem max_listeners_warning_at_most_once :
    (∀ (env : Env) (c : Bool) (ops : List TopOp) (e : String),
      warnCount ((applyTops env (initSt c) ops).2) e ≤ 1) ∧
    (∀ (st : St) (e : String), st.maxL = MaxL.fin 0 →
      emitMaxListenersExceeded st e = (st, [])) ∧
    (∀ (st : St) (e : String), st.maxL = MaxL.inf →
      emitMaxListenersExceeded st e = (st, [])) ∧
    (∀ (st : St) (e : String), warnedGet st e = true →
      emitMaxListenersExceeded st e = (st, [])) ∧
    (∀ (st : St) (e : String), getA st.events e = none →
      emitMaxListenersExceeded st e = (st, [])) ∧
    (∀ (st : St) (e : String) (arr : List Entry), getA st.events e = some arr →
      lenLeMax arr.length st.maxL = true →
      emitMaxListenersExceeded st e = (st, [])) := by
  refine ⟨?_, ?_, ?_, ?_, ?_, ?_⟩
  · intro env c ops e
    have hw := ((pres_applyTops env ops (initSt c)).2 e).2.1
    have h0 : warnedGet (initSt c) e = false := rfl
    rw [h0] at hw
    simpa using hw
  · intro st e h
    simp [emitMaxListenersExceeded, h]
  · intro st e h
    simp [emitMaxListenersExceeded, h]
  · intro st e h
    unfold emitMaxListenersExceeded
    split_ifs <;> simp_all
  · intro st e h
    unfold emitMaxListenersExceeded
    split_ifs <;> simp_all
  · intro st e arr h hlen
    unfold emitMaxListenersExceeded
    split_ifs <;> simp_all

/-- C9 witness. -/
theorem max_listeners_warning_at_most_once_witness :
    emitMaxListenersExceeded { initSt false with maxL := MaxL.fin 0 } "e"
      = ({ initSt false with maxL := MaxL.fin 0 }, []) :=
  max_listeners_warning_at_most_once.2.1 _ "e" rfl

end EvE
